import Mathlib

/-!
# Verification of the Apple Health analysis engine

A shallow embedding of the aggregation-and-statistics engine of
`skills/apple-health/scripts/analyze.py`, together with proofs of the
frozen claims about it.

Modelling conventions:
* Python floats are modelled as exact rationals (`ℚ`); the two functions
  that take a square root (`_stdev`, `pearson`) are modelled over the
  reals (`ℝ`) with `Real.sqrt`.
* Python's `round(x, d)` (banker's rounding on the decimal value) is
  modelled by `pyRound`, which rounds half-to-even exactly.
* ISO-8601 timestamps are parsed by `parseIsoDatetime`, a model of the
  standard library's `datetime.fromisoformat` as used by
  `_parse_iso_datetime`: it accepts `YYYY-MM-DDTHH:MM:SS` with optional
  fractional seconds and an optional `Z` / `+HH:MM` / `-HH:MM` offset,
  and converts to a count of seconds from the epoch (proleptic Gregorian
  calendar, via `daysFromCivil`).
* JSON sample values are modelled by `JsonV` (absent/null, number, or
  string).  `float(val)` applied to a non-numeric value raises in Python
  and the sample is skipped; the model returns `none` for those.
  (Numeric strings, which Python's `float` would accept, do not occur in
  this data format and are not modelled.)
-/

namespace Health

/-- Round-half-to-even to the nearest integer, as Python's builtin
`round` does (2.5 rounds to 2, 3.5 rounds to 4). -/
def roundHalfEven {α : Type} [LinearOrderedField α] [FloorRing α] (x : α) : ℤ :=
  let f : ℤ := ⌊x⌋
  if x - (f : α) < 1 / 2 then f
  else if (1 : α) / 2 < x - (f : α) then f + 1
  else if f % 2 = 0 then f else f + 1

/-- Model of Python's `round(x, d)`: banker's rounding at `d` decimal
places, computed exactly on the idealized (rational or real) value. -/
def pyRound {α : Type} [LinearOrderedField α] [FloorRing α] (x : α) (d : ℕ) : α :=
  ((roundHalfEven (x * 10 ^ d) : ℤ) : α) / 10 ^ d

/-- Days from 1970-01-01 of a proleptic-Gregorian civil date (standard
days-from-civil algorithm); used to linearize timestamps.  Only called
with `1 ≤ y`, `1 ≤ m ≤ 12`, so all divisions act on nonnegative
operands. -/
def daysFromCivil (y m d : ℕ) : ℤ :=
  let y' : ℤ := (y : ℤ) - (if m ≤ 2 then 1 else 0)
  let era : ℤ := y' / 400
  let yoe : ℤ := y' - era * 400
  let mp : ℤ := ((m : ℤ) + 9) % 12
  let doy : ℤ := (153 * mp + 2) / 5 + (d : ℤ) - 1
  let doe : ℤ := yoe * 365 + yoe / 4 - yoe / 100 + doy
  era * 146097 + doe - 719468

/-- Split a character list on a separator character (the string-level
`split` restricted to the single-character separators the timestamp
format uses); structurally recursive so concrete instances evaluate. -/
def splitOnChar (c : Char) : List Char → List (List Char)
  | [] => [[]]
  | x :: xs =>
    let r := splitOnChar c xs
    if x = c then [] :: r
    else
      match r with
      | h :: t => (x :: h) :: t
      | [] => [[x]]

/-- Parse a nonempty all-digit character list as a natural number
(models `int(...)` on the zero-padded timestamp fields). -/
def digitsToNat (l : List Char) : Option ℕ :=
  if l.isEmpty then none
  else if l.all (fun ch => ch.isDigit) then
    some (l.foldl (fun acc ch => acc * 10 + (ch.toNat - 48)) 0)
  else none

/-- Parse a `HH:MM` UTC-offset suffix into minutes. -/
def parseOffsetHM (off : List Char) : Option ℤ :=
  match splitOnChar ':' off with
  | [h, m] => do
    let hn ← digitsToNat h
    let mn ← digitsToNat m
    if hn < 24 && mn < 60 then some ((hn : ℤ) * 60 + (mn : ℤ)) else none
  | _ => none

/-- Split a time-of-day string into its core part and a signed UTC
offset in minutes (`HH:MM:SS[.ffffff]` optionally followed by `+HH:MM`
or `-HH:MM`). -/
def splitOffset (t : List Char) : Option (List Char × ℤ) :=
  if t.contains '+' then
    match splitOnChar '+' t with
    | [c, o] => (parseOffsetHM o).map (fun k => (c, k))
    | _ => none
  else if t.contains '-' then
    match splitOnChar '-' t with
    | [c, o] => (parseOffsetHM o).map (fun k => (c, -k))
    | _ => none
  else some (t, 0)

/-- Parse `HH:MM:SS` (fractional seconds, if any, are dropped, mirroring
the fallback in `_parse_iso_datetime`) into seconds from midnight. -/
def parseHMS (t : List Char) : Option ℤ :=
  let core := (splitOnChar '.' t).headD t
  match splitOnChar ':' core with
  | [h, m, s] => do
    let hn ← digitsToNat h
    let mn ← digitsToNat m
    let sn ← digitsToNat s
    if hn < 24 && mn < 60 && sn < 60 then
      some ((hn : ℤ) * 3600 + (mn : ℤ) * 60 + (sn : ℤ))
    else none
  | _ => none

/-- Model of `_parse_iso_datetime` (which defers to the standard
library's `datetime.fromisoformat` after replacing a trailing `Z` by
`+00:00`): returns the instant as seconds from the epoch, or `none` when
the string does not parse. -/
def parseIsoDatetime (s : String) : Option ℤ :=
  let cs := (s.toList).flatMap (fun ch => if ch = 'Z' then ("+00:00").toList else [ch])
  match splitOnChar 'T' cs with
  | [d, t] =>
    match splitOnChar '-' d with
    | [y, mo, da] => do
      let yn ← digitsToNat y
      let mon ← digitsToNat mo
      let dan ← digitsToNat da
      if 1 ≤ yn && 1 ≤ mon && mon ≤ 12 && 1 ≤ dan && dan ≤ 31 then
        match splitOffset t with
        | some (core, offMin) => do
          let secs ← parseHMS core
          some (86400 * daysFromCivil yn mon dan + secs - 60 * offMin)
        | none => none
      else none
    | _ => none
  | _ => none

/-- A JSON sample `value`: absent/null, a number, or a string. -/
inductive JsonV where
  | null : JsonV
  | num (q : ℚ) : JsonV
  | str (s : String) : JsonV
deriving DecidableEq, Repr

/-- Numeric conversion of a sample value, modelling
`float(val)` guarded by `val is not None` with `ValueError`/`TypeError`
skipped: only a JSON number converts. -/
def toNumeric (v : JsonV) : Option ℚ :=
  match v with
  | JsonV.num q => some q
  | _ => none

/-- The stage-tag view of a sample value: `s.get("value", "")` compared
against stage strings; a missing/null or numeric value never equals a
stage tag. -/
def valueTag (v : JsonV) : String :=
  match v with
  | JsonV.str s => s
  | _ => ""

/-- One health sample as stored in a day's metric file.  `startS`/`endS`
are the raw ISO timestamp strings (`none` models a missing key, which
the source treats like a parse failure via `KeyError`). -/
structure Sample where
  device : String := ""
  startS : Option String := none
  endS : Option String := none
  value : JsonV := JsonV.null
deriving DecidableEq, Repr

/-- Does `needle` occur as a contiguous substring of `hay`?  Models
Python's `in` on strings. -/
def strContains (hay needle : String) : Bool :=
  (List.range (hay.toList.length + 1)).any
    (fun i => needle.toList.isPrefixOf (hay.toList.drop i))

/-- The primary-device test of `dedup_samples`:
`"Watch" in s.get("device", "")`. -/
def isWatch (s : Sample) : Bool :=
  strContains s.device ("Watch")

/-- Parse an optional timestamp string, modelling
`_parse_iso_datetime(s["start"])` under `except (KeyError, ValueError)`. -/
def parseTs (o : Option String) : Option ℤ :=
  o.bind parseIsoDatetime

/-- The parsed `(start, end)` interval of a sample, or `none` when either
endpoint is missing or unparseable. -/
def parsedInterval (s : Sample) : Option (ℤ × ℤ) :=
  match parseTs s.startS, parseTs s.endS with
  | some a, some b => some (a, b)
  | _, _ => none

/-- The Watch-marked (primary device) samples, in input order. -/
def watchOf (samples : List Sample) : List Sample :=
  samples.filter isWatch

/-- The non-primary samples, in input order. -/
def otherOf (samples : List Sample) : List Sample :=
  samples.filter (fun s => !isWatch s)

/-- The parseable intervals of the primary samples (parse failures are
dropped), in input order. -/
def watchIntervals (samples : List Sample) : List (ℤ × ℤ) :=
  (watchOf samples).filterMap parsedInterval

/-- The primary intervals sorted by start time, as `dedup_samples`
builds them. -/
def sortedWatchIntervals (samples : List Sample) : List (ℤ × ℤ) :=
  (watchIntervals samples).mergeSort (fun a b => decide (a.1 ≤ b.1))

/-- Does the half-open interval `(a, b)` intersect any interval in
`ivs`?  The test is `s_start < w_end and s_end > w_start`. -/
def overlapsAny (ivs : List (ℤ × ℤ)) (a b : ℤ) : Bool :=
  ivs.any (fun w => decide (a < w.2) && decide (b > w.1))

/-- Keep test for a non-primary sample in `dedup_samples`: kept when its
timestamps do not parse, or when it overlaps no primary interval. -/
def keepOther (samples : List Sample) (s : Sample) : Bool :=
  match parsedInterval s with
  | none => true
  | some iv => !(overlapsAny (sortedWatchIntervals samples) iv.1 iv.2)

/-- Model of `dedup_samples`: prefer Watch samples; with no Watch sample
present return the input unchanged; otherwise keep all Watch samples
followed by the non-Watch samples that survive the overlap test. -/
def dedup_samples (samples : List Sample) : List Sample :=
  if watchOf samples = [] then samples
  else watchOf samples ++ (otherOf samples).filter (keepOther samples)

/-- Spec-side keep predicate for a non-primary sample (following the
spec's words): kept iff its start/end fail to parse, or its half-open
interval intersects no parseable primary interval. -/
def specKeep (samples : List Sample) (s : Sample) : Bool :=
  match parsedInterval s with
  | none => true
  | some iv =>
    decide (∀ w ∈ watchIntervals samples, ¬(iv.1 < w.2 ∧ w.1 < iv.2))

/-- Concrete sample list exercising `dedup_samples`: one Watch sample,
one overlapping phone sample, one non-overlapping phone sample, one
unparseable phone sample. -/
def demoDedup : List Sample :=
  [⟨"Apple Watch", some ("2026-01-15T08:00:00Z"), some ("2026-01-15T08:30:00Z"), JsonV.num 500⟩,
   ⟨"iPhone", some ("2026-01-15T08:10:00Z"), some ("2026-01-15T08:20:00Z"), JsonV.num 200⟩,
   ⟨"iPhone", some ("2026-01-15T12:00:00Z"), some ("2026-01-15T12:10:00Z"), JsonV.num 100⟩,
   ⟨"iPhone", some ("garbage"), none, JsonV.num 7⟩]

/-- One day's record as returned by `load_metric`: the calendar day (an
abstract index — `load_metric` iterates the date range, so it returns at
most one record per day, in ascending order), the raw sample list, and
the optional timezone name. -/
structure DayRecord where
  day : ℕ
  samples : List Sample
  tz : Option String := none
deriving DecidableEq, Repr

/-- The numerically convertible sample values, in order: models the
`val = s.get("value")` / `float(val)` loop body with `None` and
conversion failures skipped. -/
def numericValues (samples : List Sample) : List ℚ :=
  samples.filterMap (fun s => toNumeric s.value)

/-- Model of `aggregate_sum` applied to the loader's output: one output
pair per loaded day, whose value is the sum (starting from `0.0`) of the
convertible values of the day's deduplicated samples.  (The source
stores into an `OrderedDict` keyed by the day; since the loader yields
at most one record per day this is a map over the records.) -/
def aggregate_sum (raw : List DayRecord) : List (ℕ × ℚ) :=
  raw.map (fun e => (e.day, (numericValues (dedup_samples e.samples)).sum))

/-- Model of `aggregate_mean` applied to the loader's output: a day
contributes the arithmetic mean of its convertible values (no dedup),
and is omitted entirely when it has none. -/
def aggregate_mean (raw : List DayRecord) : List (ℕ × ℚ) :=
  raw.filterMap (fun e =>
    let vals := numericValues e.samples
    if vals.isEmpty then none
    else some (e.day, vals.sum / vals.length))

/-- A concrete day record whose only sample value is a string (not
numerically convertible). -/
def demoAggDay0 : DayRecord :=
  ⟨0, [⟨"iPhone", none, none, JsonV.str ("nope")⟩], none⟩

/-- A two-day loader output: day 0 with no convertible value, day 1 with
a numeric value. -/
def demoAggRaw : List DayRecord :=
  [demoAggDay0, ⟨1, [⟨"iPhone", none, none, JsonV.num 5⟩], none⟩]

/-- Model of `_mean`: arithmetic mean, `none` on an empty list. -/
def _mean (values : List ℚ) : Option ℚ :=
  if values.isEmpty then none else some (values.sum / (values.length : ℚ))

/-- Model of `_linear_regression`: least squares against the index
sequence `0..n-1`; `none` for fewer than two points; `(0, y_mean)` when
the index variance is zero; otherwise slope and intercept rounded to six
decimals. -/
def _linear_regression (values : List ℚ) : Option (ℚ × ℚ) :=
  let n := values.length
  if n < 2 then none
  else
    let xMean : ℚ := ((n : ℚ) - 1) / 2
    let yMean : ℚ := values.sum / (n : ℚ)
    let num := (values.enum.map (fun p => ((p.1 : ℚ) - xMean) * (p.2 - yMean))).sum
    let den := (values.enum.map (fun p => ((p.1 : ℚ) - xMean) ^ 2)).sum
    if den = 0 then some (0, yMean)
    else
      let slope := num / den
      some (pyRound slope 6, pyRound (yMean - slope * xMean) 6)

/-- The trend-direction computation of `_build_metric_stats`: "flat"
when the slope is undefined, the mean undefined, or the mean zero;
otherwise "up"/"down" by the sign of the slope when
`|slope·n| / |mean| > 0.05`, else "flat". -/
def trend_direction (values : List ℚ) : String :=
  let n := values.length
  let meanVal := _mean values
  let slopeOpt := (_linear_regression values).map Prod.fst
  match slopeOpt, meanVal with
  | some slope, some m =>
    if m = 0 then "flat"
    else if (0.05 : ℚ) < |slope * (n : ℚ)| / |m| then
      (if 0 < slope then "up" else "down")
    else "flat"
  | _, _ => "flat"

/-- The period-over-period comparison record of `_build_metric_stats`:
half averages rounded to two decimals, percentage change rounded to
one. -/
structure PeriodComparison where
  first_half_avg : Option ℚ
  second_half_avg : Option ℚ
  change_pct : ℚ
deriving DecidableEq, Repr

/-- The period-over-period computation of `_build_metric_stats`:
computed only for at least four values; splits at the midpoint index
`n / 2` and reports the second-half mean as a percentage change relative
to the first-half mean (`0` when the first-half mean is `0` or
undefined). -/
def period_comparison (values : List ℚ) : Option PeriodComparison :=
  let n := values.length
  if n < 4 then none
  else
    let mid := n / 2
    let firstHalf := values.take mid
    let secondHalf := values.drop mid
    let fhAvg := _mean firstHalf
    let shAvg := _mean secondHalf
    let changePct : ℚ :=
      match fhAvg, shAvg with
      | some fa, some sa =>
        if fa ≠ 0 then pyRound ((sa - fa) / |fa| * 100) 1 else 0
      | _, _ => 0
    some ⟨fhAvg.map (fun v => pyRound v 2), shAvg.map (fun v => pyRound v 2), changePct⟩

/-- Spec-side mean of the first half (split at the midpoint index). -/
def firstHalfMean (values : List ℚ) : ℚ :=
  (values.take (values.length / 2)).sum / ((values.take (values.length / 2)).length : ℚ)

/-- Spec-side mean of the second half (split at the midpoint index). -/
def secondHalfMean (values : List ℚ) : ℚ :=
  (values.drop (values.length / 2)).sum / ((values.drop (values.length / 2)).length : ℚ)

/-- Model of Python's `min(items, key=lambda x: x[1])` over a day→value
association list: first pair with minimal value, `none` on empty. -/
def minBySnd (l : List (ℕ × ℚ)) : Option (ℕ × ℚ) :=
  match l with
  | [] => none
  | x :: xs => some (xs.foldl (fun b a => if a.2 < b.2 then a else b) x)

/-- Model of Python's `max(items, key=lambda x: x[1])`: first pair with
maximal value, `none` on empty. -/
def maxBySnd (l : List (ℕ × ℚ)) : Option (ℕ × ℚ) :=
  match l with
  | [] => none
  | x :: xs => some (xs.foldl (fun b a => if b.2 < a.2 then a else b) x)

/-- The `bests` dictionary built by `mode_yearly` from the four daily
series (steps, sleep hours, resting HR, HRV), as an insertion-ordered
association list; values are rounded as the source rounds them. -/
def yearly_bests (steps sleepd rhr hrv : List (ℕ × ℚ)) : List (String × ℕ × ℚ) :=
  (match maxBySnd steps with
   | some p => [(("highest_step_day" : String), p.1, pyRound p.2 0)]
   | none => []) ++
  (match maxBySnd sleepd with
   | some p => [(("longest_sleep" : String), p.1, pyRound p.2 2)]
   | none => []) ++
  (match minBySnd rhr with
   | some p => [(("lowest_resting_hr" : String), p.1, pyRound p.2 2)]
   | none => []) ++
  (match maxBySnd hrv with
   | some p => [(("highest_hrv" : String), p.1, pyRound p.2 2)]
   | none => [])

/-- The `worsts` dictionary built by `mode_yearly`.  The HRV series is
accepted for signature parity but unused: the source writes no
worst-HRV entry (only `bests["highest_hrv"]`). -/
def yearly_worsts (steps sleepd rhr _hrv : List (ℕ × ℚ)) : List (String × ℕ × ℚ) :=
  (match minBySnd steps with
   | some p => [(("lowest_step_day" : String), p.1, pyRound p.2 0)]
   | none => []) ++
  (match minBySnd sleepd with
   | some p => [(("shortest_sleep" : String), p.1, pyRound p.2 2)]
   | none => []) ++
  (match maxBySnd rhr with
   | some p => [(("highest_resting_hr" : String), p.1, pyRound p.2 2)]
   | none => [])

/-- One histogram bin of `_distribution_bins` (the source's `from`/`to`
keys are Lean keywords, hence `binFrom`/`binTo`). -/
structure HBin where
  binFrom : ℚ
  binTo : ℚ
  count : ℕ
deriving DecidableEq, Repr

/-- Model of `_distribution_bins`: `none` on empty input; a single
all-containing bin when min equals max; otherwise `nBins` equal-width
bins, each counting `b_from ≤ v < b_to`, the final bin also counting
`v == b_to`.  Displayed bounds are rounded to two decimals but counting
uses the exact bounds, as in the source. -/
def _distribution_bins (values : List ℚ) (nBins : ℕ) : Option (List HBin) :=
  match values with
  | [] => none
  | v0 :: vs =>
    let lo := vs.foldl min v0
    let hi := vs.foldl max v0
    if lo = hi then some [⟨pyRound lo 2, pyRound hi 2, (v0 :: vs).length⟩]
    else
      let width := (hi - lo) / (nBins : ℚ)
      some ((List.range nBins).map (fun (i : ℕ) =>
        let bFrom := lo + (i : ℚ) * width
        let bTo := lo + ((i : ℚ) + 1) * width
        ⟨pyRound bFrom 2, pyRound bTo 2,
          (v0 :: vs).countP (fun v =>
            (decide (bFrom ≤ v) && decide (v < bTo))
            || (decide (i = nBins - 1) && decide (v = bTo)))⟩))

/-- The sleep stage tags counted toward total sleep. -/
def SLEEP_STAGES : List String := ["asleepCore", "asleepDeep", "asleepREM"]

/-- Duration of a parsed interval in minutes
(`(end - start).total_seconds() / 60`). -/
def durationMin (iv : ℤ × ℤ) : ℚ :=
  ((iv.2 - iv.1 : ℤ) : ℚ) / 60

/-- The durations (in minutes) accumulated by `_analyze_sleep_day` for
one value tag: one entry per sample with parseable timestamps, positive
duration, and that tag, in input order. -/
def stageDurations (tag : String) (samples : List Sample) : List ℚ :=
  samples.filterMap (fun s =>
    match parsedInterval s with
    | some iv =>
      if 0 < durationMin iv ∧ valueTag s.value = tag then some (durationMin iv)
      else none
    | none => none)

/-- Total minutes accumulated by `_analyze_sleep_day` for one value
tag. -/
def stageMinutes (tag : String) (samples : List Sample) : ℚ :=
  (stageDurations tag samples).sum

/-- A sample that contributes to a sleep stage: parseable timestamps,
positive duration, and a stage tag. -/
def isStageSample (s : Sample) : Bool :=
  match parsedInterval s with
  | some iv => decide (0 < durationMin iv) && decide (valueTag s.value ∈ SLEEP_STAGES)
  | none => false

/-- The start strings pushed onto `sleep_starts` by `_analyze_sleep_day`
(one per contributing stage sample, in order). -/
def sleepStarts (samples : List Sample) : List String :=
  (samples.filter isStageSample).filterMap (fun s => s.startS)

/-- The end strings pushed onto `sleep_ends`. -/
def sleepEnds (samples : List Sample) : List String :=
  (samples.filter isStageSample).filterMap (fun s => s.endS)

/-- Sort key used for bedtime/waketime selection:
`key=_parse_iso_datetime`.  Every string it is applied to was pushed
after a successful parse, so the default value is never used. -/
def parseKey (s : String) : ℤ :=
  (parseIsoDatetime s).getD 0

/-- Python's `min(l, key=key)`: first element with minimal key. -/
def minByKey (key : String → ℤ) : List String → Option String
  | [] => none
  | x :: xs => some (xs.foldl (fun b a => if key a < key b then a else b) x)

/-- Python's `max(l, key=key)`: first element with maximal key. -/
def maxByKey (key : String → ℤ) : List String → Option String
  | [] => none
  | x :: xs => some (xs.foldl (fun b a => if key b < key a then a else b) x)

/-- The nightly result of `_analyze_sleep_day`.  The source converts the
chosen earliest start / latest end to local time via `_utc_to_local_str`
(a timezone-database lookup that depends on the runtime environment and
is outside the claims); the model keeps the chosen timestamp strings. -/
structure SleepResult where
  total_hrs : ℚ
  deep_pct : ℚ
  core_pct : ℚ
  rem_pct : ℚ
  awake_min : ℚ
  bedtimeStart : Option String
  waketimeEnd : Option String
deriving DecidableEq, Repr

/-- Total stage minutes of a night (`sum(stage_minutes.values())`). -/
def totalStageMin (samples : List Sample) : ℚ :=
  stageMinutes ("asleepCore") samples + stageMinutes ("asleepDeep") samples
    + stageMinutes ("asleepREM") samples

/-- Model of `_analyze_sleep_day`: absent when total stage minutes is
zero; otherwise total hours, stage percentages (awake excluded from the
denominator), awake minutes, and the earliest start / latest end of the
contributing stage samples. -/
def analyze_sleep_day (samples : List Sample) : Option SleepResult :=
  let total := totalStageMin samples
  if total = 0 then none
  else some {
    total_hrs := pyRound (total / 60) 2
    deep_pct := pyRound (stageMinutes ("asleepDeep") samples / total * 100) 1
    core_pct := pyRound (stageMinutes ("asleepCore") samples / total * 100) 1
    rem_pct := pyRound (stageMinutes ("asleepREM") samples / total * 100) 1
    awake_min := pyRound (stageMinutes ("awake") samples) 1
    bedtimeStart := minByKey parseKey (sleepStarts samples)
    waketimeEnd := maxByKey parseKey (sleepEnds samples) }

/-- A concrete night: one four-hour core-sleep sample crossing midnight
and one thirty-minute awake sample. -/
def demoSleep : List Sample :=
  [⟨"Apple Watch", some ("2026-01-15T22:00:00Z"), some ("2026-01-16T02:00:00Z"),
     JsonV.str ("asleepCore")⟩,
   ⟨"Apple Watch", some ("2026-01-16T02:00:00Z"), some ("2026-01-16T02:30:00Z"),
     JsonV.str ("awake")⟩]

/-- Population mean over the reals, as `pearson` computes it. -/
noncomputable def popMean (x : List ℝ) : ℝ :=
  x.sum / (x.length : ℝ)

/-- Population variance over the reals (divide by N), as `pearson` and
`_stdev` compute it before the square root. -/
noncomputable def popVar (x : List ℝ) : ℝ :=
  (x.map (fun v => (v - popMean x) ^ 2)).sum / (x.length : ℝ)

open Classical in
/-- Model of `pearson`: `(0, 1, n)` for fewer than seven points or a
zero standard deviation; otherwise the covariance over the product of
population standard deviations, clamped to `[-1, 1]`; `p = 0` when
`|r| = 1`, else the exponential approximation of the two-tailed p-value,
zero for `|t| ≥ 6`.  `r` and `p` are rounded to four decimals. -/
noncomputable def pearson (x y : List ℝ) : ℝ × ℝ × ℕ :=
  let n := x.length
  if n < 7 then (0, 1, n)
  else
    let mx := popMean x
    let my := popMean y
    let cov := (((x.zip y).map (fun p => (p.1 - mx) * (p.2 - my))).sum) / (n : ℝ)
    let sx := Real.sqrt (popVar x)
    let sy := Real.sqrt (popVar y)
    if sx = 0 ∨ sy = 0 then (0, 1, n)
    else
      let r := cov / (sx * sy)
      let r := max (-1) (min 1 r)
      if 1 ≤ |r| then (pyRound r 4, 0, n)
      else
        let t := r * Real.sqrt (((n : ℝ) - 2) / (1 - r ^ 2))
        let p := if |t| < 6 then Real.exp (-(0.717) * |t| - 0.416 * t ^ 2) else 0
        (pyRound r 4, pyRound p 4, n)

/-- Model of `_stdev`: `none` for fewer than two values, else the square
root of the population variance. -/
noncomputable def _stdev (values : List ℚ) : Option ℝ :=
  if values.length < 2 then none
  else
    let m : ℚ := values.sum / (values.length : ℚ)
    let variance : ℚ := ((values.map (fun x => (x - m) ^ 2)).sum) / (values.length : ℚ)
    some (Real.sqrt ((variance : ℚ) : ℝ))

/-- One anomaly entry emitted by `mode_scan` (metric name omitted — the
model is per metric). -/
structure Anomaly where
  day : ℕ
  value : ℚ
  zScore : ℝ

open Classical in
/-- The anomaly-detection block of `mode_scan` for one metric's daily
series: emits an entry per day with `|z| > 2`, but only when the mean
and standard deviation exist and the standard deviation is strictly
positive. -/
noncomputable def scan_anomalies (daily : List (ℕ × ℚ)) : List Anomaly :=
  let values := daily.map Prod.snd
  match _mean values, _stdev values with
  | some m, some s =>
    if 0 < s then
      daily.filterMap (fun p =>
        let z : ℝ := (((p.2 - m : ℚ) : ℝ)) / s
        if 2 < |z| then some ⟨p.1, pyRound p.2 2, pyRound z 2⟩ else none)
    else []
  | _, _ => []

/- ------------------------------------------------------------------ -/
/- Helper lemmas                                                      -/
/- ------------------------------------------------------------------ -/

lemma bool_eq_of_iff {x y : Bool} (h : x = true ↔ y = true) : x = y := by
  cases x <;> cases y <;> simp_all

lemma roundHalfEven_intCast {α : Type} [LinearOrderedField α] [FloorRing α] (k : ℤ) :
    roundHalfEven ((k : α)) = k := by
  unfold roundHalfEven
  rw [Int.floor_intCast]
  norm_num

lemma pyRound_intCast {α : Type} [LinearOrderedField α] [FloorRing α] (k : ℤ) (d : ℕ) :
    pyRound ((k : α)) d = (k : α) := by
  unfold pyRound
  have hcast : ((k : α) * 10 ^ d) = (((k * 10 ^ d : ℤ) : α)) := by push_cast; ring
  rw [hcast, roundHalfEven_intCast]
  push_cast
  rw [mul_div_assoc, div_self (by positivity), mul_one]

lemma filter_self_eq {α : Type} (p : α → Bool) (l : List α) :
    (l.filter p).filter p = l.filter p := by
  rw [List.filter_filter]; simp only [Bool.and_self]

lemma dedup_eq_of_watch_ne (samples : List Sample) (h : watchOf samples ≠ []) :
    dedup_samples samples
      = watchOf samples ++ (otherOf samples).filter (keepOther samples) := by
  simp [dedup_samples, h]

lemma watchOf_dedup (samples : List Sample) (h : watchOf samples ≠ []) :
    watchOf (dedup_samples samples) = watchOf samples := by
  rw [dedup_eq_of_watch_ne samples h]
  have h2 : ∀ a : Sample, ((isWatch a && keepOther samples a) && !isWatch a) = false := by
    intro a; cases hw : isWatch a <;> simp [hw]
  simp only [watchOf, otherOf, List.filter_append, List.filter_filter, Bool.and_self, h2]
  simp
  exact fun a _ ha _ => ha

lemma otherOf_dedup (samples : List Sample) (h : watchOf samples ≠ []) :
    otherOf (dedup_samples samples) = (otherOf samples).filter (keepOther samples) := by
  rw [dedup_eq_of_watch_ne samples h]
  have h1 : ∀ a : Sample, (!isWatch a && isWatch a) = false := by
    intro a; cases hw : isWatch a <;> simp [hw]
  have h2 : ∀ a : Sample,
      ((!isWatch a && keepOther samples a) && !isWatch a)
        = (keepOther samples a && !isWatch a) := by
    intro a; cases hw : isWatch a <;> simp [hw]
  simp only [otherOf, watchOf, List.filter_append, List.filter_filter, h1, h2]
  simp
  apply List.filter_congr
  intro a _
  cases hw : isWatch a <;> cases hk : keepOther samples a <;> simp [hw, hk]

lemma watchIntervals_dedup (samples : List Sample) (h : watchOf samples ≠ []) :
    watchIntervals (dedup_samples samples) = watchIntervals samples := by
  simp only [watchIntervals, watchOf_dedup samples h]

lemma sortedWatchIntervals_dedup (samples : List Sample) (h : watchOf samples ≠ []) :
    sortedWatchIntervals (dedup_samples samples) = sortedWatchIntervals samples := by
  simp only [sortedWatchIntervals, watchIntervals_dedup samples h]

lemma keepOther_dedup (samples : List Sample) (h : watchOf samples ≠ []) :
    keepOther (dedup_samples samples) = keepOther samples := by
  funext s
  simp only [keepOther, sortedWatchIntervals_dedup samples h]

lemma keepOther_eq_specKeep (samples : List Sample) :
    ∀ s, keepOther samples s = specKeep samples s := by
  intro s
  simp only [keepOther, specKeep]
  cases hp : parsedInterval s with
  | none => rfl
  | some iv =>
    apply bool_eq_of_iff
    have hperm : List.Perm (sortedWatchIntervals samples) (watchIntervals samples) :=
      List.mergeSort_perm _ _
    have hmem : ∀ w : ℤ × ℤ, w ∈ sortedWatchIntervals samples ↔ w ∈ watchIntervals samples :=
      fun w => hperm.mem_iff
    simp only [overlapsAny, Bool.not_eq_true', List.any_eq_false, Bool.and_eq_true,
      decide_eq_true_eq, not_and, gt_iff_lt]
    constructor
    · intro hall w hw
      exact hall w ((hmem w).mpr hw)
    · intro hall w hw
      exact hall w ((hmem w).mp hw)

/- ------------------------------------------------------------------ -/
/- Claim theorems                                                     -/
/- ------------------------------------------------------------------ -/

/-- C1. `dedup_samples` is idempotent: applying it twice yields the same
list of samples, in the same order, as applying it once. -/
theorem dedup_samples_idempotent (samples : List Sample) :
    dedup_samples (dedup_samples samples) = dedup_samples samples := by
  by_cases h : watchOf samples = []
  · have hs : dedup_samples samples = samples := by simp [dedup_samples, h]
    rw [hs, hs]
  · have hW : watchOf (dedup_samples samples) = watchOf samples := watchOf_dedup samples h
    have hne : watchOf (dedup_samples samples) ≠ [] := by rw [hW]; exact h
    calc dedup_samples (dedup_samples samples)
        = watchOf (dedup_samples samples)
            ++ (otherOf (dedup_samples samples)).filter
                (keepOther (dedup_samples samples)) :=
          dedup_eq_of_watch_ne _ hne
      _ = watchOf samples
            ++ ((otherOf samples).filter (keepOther samples)).filter
                (keepOther samples) := by
          rw [hW, otherOf_dedup samples h, keepOther_dedup samples h]
      _ = watchOf samples ++ (otherOf samples).filter (keepOther samples) := by
          rw [filter_self_eq]
      _ = dedup_samples samples := (dedup_eq_of_watch_ne samples h).symm

/-- C2. When at least one Watch-marked sample is present, the result of
`dedup_samples` is all primary samples (in input order) followed by
exactly those non-primary samples (in input order) whose timestamps fail
to parse or whose half-open interval intersects no parseable primary
interval. -/
theorem dedup_samples_partition (samples : List Sample) (h : watchOf samples ≠ []) :
    dedup_samples samples
      = watchOf samples ++ (otherOf samples).filter (specKeep samples) := by
  rw [dedup_eq_of_watch_ne samples h]
  congr 1
  exact List.filter_congr (fun s _ => keepOther_eq_specKeep samples s)

/-- C2 witness: the partition equation instantiated on a concrete sample
list with a Watch sample present. -/
theorem dedup_samples_partition_witness :
    watchOf demoDedup ≠ [] ∧
      dedup_samples demoDedup
        = watchOf demoDedup ++ (otherOf demoDedup).filter (specKeep demoDedup) :=
  ⟨by decide, dedup_samples_partition demoDedup (by decide)⟩

/-- C3. Each day the loader returned appears in the `aggregate_sum`
series, with value `0` when the day has no convertible values after
dedup; `aggregate_mean` contains a loaded day exactly when it has at
least one convertible value (no dedup). -/
theorem aggregate_day_behaviour (raw : List DayRecord)
    (hnd : (raw.map DayRecord.day).Nodup) (e : DayRecord) (he : e ∈ raw) :
    ((e.day, (numericValues (dedup_samples e.samples)).sum) ∈ aggregate_sum raw)
    ∧ (numericValues (dedup_samples e.samples) = [] →
        (e.day, (0 : ℚ)) ∈ aggregate_sum raw)
    ∧ (numericValues e.samples = [] →
        e.day ∉ (aggregate_mean raw).map Prod.fst)
    ∧ (numericValues e.samples ≠ [] →
        e.day ∈ (aggregate_mean raw).map Prod.fst) := by
  refine ⟨List.mem_map_of_mem _ he, ?_, ?_, ?_⟩
  · intro h0
    have h1 : (e.day, (numericValues (dedup_samples e.samples)).sum)
        ∈ aggregate_sum raw := List.mem_map_of_mem _ he
    rw [h0] at h1
    simpa using h1
  · intro h0 hmem
    obtain ⟨⟨d, v⟩, hdv, hfst⟩ := List.mem_map.mp hmem
    obtain ⟨e', he', heq⟩ := List.mem_filterMap.mp hdv
    simp only [] at heq
    split at heq
    · exact absurd heq (by simp)
    · rename_i hne'
      injection heq with heq2
      have hd : e'.day = d := congrArg Prod.fst heq2
      have hde : e'.day = e.day := hd.trans hfst
      have he'e : e' = e := List.inj_on_of_nodup_map hnd he' he hde
      exact hne' (by rw [he'e, h0]; rfl)
  · intro hne
    refine List.mem_map.mpr ⟨(e.day, (numericValues e.samples).sum /
      ((numericValues e.samples).length : ℚ)), ?_, rfl⟩
    refine List.mem_filterMap.mpr ⟨e, he, ?_⟩
    rw [if_neg (by simpa using hne)]

/-- C3 witness: a two-day instance — a day whose only sample value is a
string contributes `0` to the sum series and is absent from the mean
series. -/
theorem aggregate_day_behaviour_witness :
    ((0, (0 : ℚ)) ∈ aggregate_sum demoAggRaw)
    ∧ ((0 : ℕ) ∉ (aggregate_mean demoAggRaw).map Prod.fst) := by
  constructor
  · exact (aggregate_day_behaviour demoAggRaw (by decide) demoAggDay0
      (by decide)).2.1 (by decide)
  · exact (aggregate_day_behaviour demoAggRaw (by decide) demoAggDay0
      (by decide)).2.2.1 (by decide)

/-- C6. Trend direction for a nonempty series: "flat" when the slope is
undefined (a single point), when the mean is zero; otherwise "up"/"down"
by the sign of the slope exactly when `|slope·n| / |mean| > 0.05`, else
"flat". -/
theorem trend_direction_spec (values : List ℚ) (h : values ≠ []) :
    (values.length = 1 → trend_direction values = "flat")
    ∧ (_mean values = some 0 → trend_direction values = "flat")
    ∧ (∀ slope m, (_linear_regression values).map Prod.fst = some slope →
        _mean values = some m → m ≠ 0 →
        trend_direction values =
          if (0.05 : ℚ) < |slope * (values.length : ℚ)| / |m| then
            (if 0 < slope then "up" else "down")
          else "flat") := by
  refine ⟨?_, ?_, ?_⟩
  · intro h1
    have hreg : _linear_regression values = none := by
      unfold _linear_regression
      simp only [h1]
      norm_num
    simp [trend_direction, hreg]
  · intro h0
    rcases hs : (_linear_regression values).map Prod.fst with _ | s
    · simp [trend_direction, hs, h0]
    · simp [trend_direction, hs, h0]
  · intro slope m hs hm hm0
    simp [trend_direction, hs, hm, hm0]

/-- C6 witness: the series `[0, 10]` has slope 10, mean 5, relative
slope `4 > 0.05`, so the direction is "up". -/
theorem trend_direction_witness :
    trend_direction ((0 : ℚ) :: 10 :: []) = "up" := by
  have h10 : pyRound (10 : ℚ) 6 = 10 := by
    have h := pyRound_intCast (α := ℚ) 10 6
    norm_num at h
    exact h
  have hlin : (_linear_regression ((0 : ℚ) :: 10 :: [])).map Prod.fst = some 10 := by
    norm_num [_linear_regression, List.enum, List.enumFrom, h10]
  have hmean : _mean ((0 : ℚ) :: 10 :: []) = some 5 := by
    norm_num [_mean]
  have h := (trend_direction_spec ((0 : ℚ) :: 10 :: []) (by simp)).2.2 10 5
    hlin hmean (by norm_num)
  rw [h]
  norm_num

/-- C7 counterexample: a nonempty three-value series has no
period-over-period comparison at all (the source computes it only for at
least four values). -/
theorem period_comparison_counterexample :
    ((1 : ℚ) :: 2 :: 3 :: []) ≠ [] ∧ period_comparison ((1 : ℚ) :: 2 :: 3 :: []) = none :=
  ⟨by simp, rfl⟩

/-- C7 (amended). For a series of at least four values, the comparison
splits at the midpoint index and reports the second-half mean as a
percentage change relative to the first-half mean, `0` when the
first-half mean is zero. -/
theorem period_comparison_spec (values : List ℚ) (h : 4 ≤ values.length) :
    period_comparison values
      = some ⟨some (pyRound (firstHalfMean values) 2),
          some (pyRound (secondHalfMean values) 2),
          if firstHalfMean values = 0 then 0
          else pyRound ((secondHalfMean values - firstHalfMean values)
            / |firstHalfMean values| * 100) 1⟩ := by
  have hn4 : ¬ values.length < 4 := by omega
  have htak : (values.take (values.length / 2)) ≠ [] := by
    intro hc
    have h1 : (values.take (values.length / 2)).length = 0 := by rw [hc]; rfl
    rw [List.length_take] at h1
    omega
  have hdrp : (values.drop (values.length / 2)) ≠ [] := by
    intro hc
    have h1 : (values.drop (values.length / 2)).length = 0 := by rw [hc]; rfl
    rw [List.length_drop] at h1
    omega
  have hfh : _mean (values.take (values.length / 2)) = some (firstHalfMean values) := by
    unfold _mean firstHalfMean
    rw [if_neg (by simp [htak])]
  have hsh : _mean (values.drop (values.length / 2)) = some (secondHalfMean values) := by
    unfold _mean secondHalfMean
    rw [if_neg (by simp [hdrp])]
  simp only [period_comparison, hn4, if_false, hfh, hsh, Option.map_some']
  by_cases hfa : firstHalfMean values = 0 <;> simp [hfa]

/-- C7 witness: the amended comparison instantiated on `[1, 2, 3, 4]`. -/
theorem period_comparison_witness :
    (4 ≤ ((1 : ℚ) :: 2 :: 3 :: 4 :: []).length)
    ∧ period_comparison ((1 : ℚ) :: 2 :: 3 :: 4 :: [])
      = some ⟨some (pyRound (firstHalfMean ((1 : ℚ) :: 2 :: 3 :: 4 :: [])) 2),
          some (pyRound (secondHalfMean ((1 : ℚ) :: 2 :: 3 :: 4 :: [])) 2),
          if firstHalfMean ((1 : ℚ) :: 2 :: 3 :: 4 :: []) = 0 then 0
          else pyRound ((secondHalfMean ((1 : ℚ) :: 2 :: 3 :: 4 :: [])
            - firstHalfMean ((1 : ℚ) :: 2 :: 3 :: 4 :: []))
            / |firstHalfMean ((1 : ℚ) :: 2 :: 3 :: 4 :: [])| * 100) 1⟩ :=
  ⟨by decide, period_comparison_spec _ (by decide)⟩

/-- C8 counterexample: with a nonempty HRV series (and the other series
empty), the worsts dictionary of `mode_yearly` is empty — no worst-HRV
day is reported. -/
theorem yearly_hrv_counterexample :
    ([((0 : ℕ), (50 : ℚ))] ≠ []) ∧ yearly_worsts [] [] [] [((0 : ℕ), (50 : ℚ))] = [] :=
  ⟨by simp, rfl⟩

/-- C8 (amended). A nonempty HRV series always yields a best
(highest-HRV) entry in `bests`, but `worsts` only ever contains the
step, sleep, and resting-HR keys — never a worst-HRV entry. -/
theorem yearly_hrv_best_only (steps sleepd rhr hrv : List (ℕ × ℚ)) (h : hrv ≠ []) :
    (∃ p : ℕ × ℚ, ("highest_hrv", p) ∈ yearly_bests steps sleepd rhr hrv)
    ∧ (∀ k : String, ∀ p : ℕ × ℚ, (k, p) ∈ yearly_worsts steps sleepd rhr hrv →
        k = "lowest_step_day" ∨ k = "shortest_sleep" ∨ k = "highest_resting_hr") := by
  constructor
  · obtain ⟨x, xs, hx⟩ := List.exists_cons_of_ne_nil h
    refine ⟨((xs.foldl (fun b a => if b.2 < a.2 then a else b) x).1,
      pyRound (xs.foldl (fun b a => if b.2 < a.2 then a else b) x).2 2), ?_⟩
    unfold yearly_bests
    apply List.mem_append_right
    rw [hx]
    simp [maxBySnd]
  · intro k p hk
    unfold yearly_worsts at hk
    rcases List.mem_append.mp hk with hk12 | hk3
    · rcases List.mem_append.mp hk12 with hk1 | hk2
      · rcases hms : minBySnd steps with _ | q
        · rw [hms] at hk1; simp at hk1
        · rw [hms] at hk1
          simp at hk1
          exact Or.inl hk1.1
      · rcases hms : minBySnd sleepd with _ | q
        · rw [hms] at hk2; simp at hk2
        · rw [hms] at hk2
          simp at hk2
          exact Or.inr (Or.inl hk2.1)
    · rcases hms : maxBySnd rhr with _ | q
      · rw [hms] at hk3; simp at hk3
      · rw [hms] at hk3
        simp at hk3
        exact Or.inr (Or.inr hk3.1)

/-- C8 witness: the amended statement instantiated with a one-day HRV
series and the other series empty. -/
theorem yearly_hrv_best_only_witness :
    (∃ p : ℕ × ℚ, ("highest_hrv", p) ∈ yearly_bests [] [] [] [((0 : ℕ), (50 : ℚ))])
    ∧ (∀ k : String, ∀ p : ℕ × ℚ, (k, p) ∈ yearly_worsts [] [] [] [((0 : ℕ), (50 : ℚ))] →
        k = "lowest_step_day" ∨ k = "shortest_sleep" ∨ k = "highest_resting_hr") :=
  yearly_hrv_best_only [] [] [] [((0 : ℕ), (50 : ℚ))] (by simp)

/-- C10. The anomaly block of `mode_scan` emits entries only when the
series has at least two values and a strictly positive standard
deviation, so the z-score divisor is nonzero. -/
theorem scan_anomalies_guard (daily : List (ℕ × ℚ)) :
    scan_anomalies daily = []
    ∨ (2 ≤ daily.length
        ∧ ∃ s : ℝ, _stdev (daily.map Prod.snd) = some s ∧ 0 < s ∧ s ≠ 0) := by
  rcases hm : _mean (daily.map Prod.snd) with _ | m
  · left; simp [scan_anomalies, hm]
  · rcases hs : _stdev (daily.map Prod.snd) with _ | s
    · left; simp [scan_anomalies, hm, hs]
    · by_cases hpos : 0 < s
      · right
        refine ⟨?_, s, rfl, hpos, ne_of_gt hpos⟩
        by_contra hlt
        push_neg at hlt
        have hnone : _stdev (daily.map Prod.snd) = none := by
          unfold _stdev
          rw [if_pos (by rw [List.length_map]; omega)]
        rw [hnone] at hs
        exact Option.noConfusion hs
      · left
        simp [scan_anomalies, hm, hs, hpos]

lemma stageDurations_pos (tag : String) (samples : List Sample) :
    ∀ x ∈ stageDurations tag samples, 0 < x := by
  intro x hx
  obtain ⟨s, hs, hfx⟩ := List.mem_filterMap.mp hx
  split at hfx
  · split at hfx
    · rename_i hc
      injection hfx with h2
      rw [← h2]
      exact hc.1
    · simp at hfx
  · simp at hfx

lemma stageMinutes_nonneg (tag : String) (samples : List Sample) :
    0 ≤ stageMinutes tag samples :=
  List.sum_nonneg (fun x hx => le_of_lt (stageDurations_pos tag samples x hx))

lemma stageMinutes_eq_zero_iff (tag : String) (samples : List Sample) :
    stageMinutes tag samples = 0 ↔ stageDurations tag samples = [] := by
  constructor
  · intro h0
    by_contra hne
    have hpos : 0 < stageMinutes tag samples :=
      List.sum_pos _ (stageDurations_pos tag samples) hne
    rw [h0] at hpos
    exact lt_irrefl 0 hpos
  · intro hnil
    rw [stageMinutes, hnil, List.sum_nil]

lemma stageDurations_eq_nil_iff (tag : String) (samples : List Sample) :
    stageDurations tag samples = []
      ↔ ∀ s ∈ samples, ∀ iv, parsedInterval s = some iv →
          ¬(0 < durationMin iv ∧ valueTag s.value = tag) := by
  rw [stageDurations, List.filterMap_eq_nil_iff]
  constructor
  · intro hall s hs iv hiv hc
    have h1 := hall s hs
    simp only [hiv] at h1
    rw [if_pos hc] at h1
    exact Option.noConfusion h1
  · intro hall s hs
    rcases hp : parsedInterval s with _ | iv
    · simp only [hp]
    · simp only [hp]
      rw [if_neg (hall s hs iv hp)]

/-- C5. `_analyze_sleep_day` returns a result iff some sample has
parseable timestamps, positive duration, and a sleep-stage tag; the
result's total hours are the total stage minutes over sixty, each stage
percentage is that stage's minutes over total stage minutes times one
hundred (awake minutes excluded from the denominator), and awake minutes
accumulate separately. -/
theorem analyze_sleep_day_spec (samples : List Sample) :
    ((analyze_sleep_day samples).isSome
      ↔ ∃ s ∈ samples, ∃ iv, parsedInterval s = some iv ∧ 0 < durationMin iv
          ∧ valueTag s.value ∈ SLEEP_STAGES)
    ∧ (∀ r, analyze_sleep_day samples = some r →
        r.total_hrs = pyRound (totalStageMin samples / 60) 2
        ∧ r.deep_pct = pyRound (stageMinutes ("asleepDeep") samples
            / totalStageMin samples * 100) 1
        ∧ r.core_pct = pyRound (stageMinutes ("asleepCore") samples
            / totalStageMin samples * 100) 1
        ∧ r.rem_pct = pyRound (stageMinutes ("asleepREM") samples
            / totalStageMin samples * 100) 1
        ∧ r.awake_min = pyRound (stageMinutes ("awake") samples) 1) := by
  constructor
  · have hiff : (analyze_sleep_day samples).isSome = true
        ↔ ¬ totalStageMin samples = 0 := by
      unfold analyze_sleep_day
      by_cases h0 : totalStageMin samples = 0 <;> simp [h0]
    rw [hiff]
    have hc := stageMinutes_nonneg ("asleepCore") samples
    have hd := stageMinutes_nonneg ("asleepDeep") samples
    have hr := stageMinutes_nonneg ("asleepREM") samples
    rw [totalStageMin, add_eq_zero_iff_of_nonneg (add_nonneg hc hd) hr,
      add_eq_zero_iff_of_nonneg hc hd]
    rw [stageMinutes_eq_zero_iff, stageMinutes_eq_zero_iff, stageMinutes_eq_zero_iff,
      stageDurations_eq_nil_iff, stageDurations_eq_nil_iff, stageDurations_eq_nil_iff]
    constructor
    · intro hne
      by_contra hnex
      push_neg at hnex
      refine hne ⟨⟨?_, ?_⟩, ?_⟩
      all_goals
        intro s hs iv hiv hcc
        exact hnex s hs iv hiv hcc.1 (by simp [SLEEP_STAGES, hcc.2])
    · rintro ⟨s, hs, iv, hiv, hdur, htag⟩ ⟨⟨hcore, hdeep⟩, hrem⟩
      simp only [SLEEP_STAGES, List.mem_cons, List.not_mem_nil, or_false] at htag
      rcases htag with h1 | h2 | h3
      · exact hcore s hs iv hiv ⟨hdur, h1⟩
      · exact hdeep s hs iv hiv ⟨hdur, h2⟩
      · exact hrem s hs iv hiv ⟨hdur, h3⟩
  · intro r hr
    simp only [analyze_sleep_day] at hr
    by_cases h0 : totalStageMin samples = 0
    · rw [if_pos h0] at hr
      exact Option.noConfusion hr
    · rw [if_neg h0] at hr
      injection hr with hrec
      rw [← hrec]
      exact ⟨rfl, rfl, rfl, rfl, rfl⟩

/-- C5 witness: the sleep-night characterization instantiated on a
concrete night with one core-sleep sample and one awake sample. -/
theorem analyze_sleep_day_witness :
    ((analyze_sleep_day demoSleep).isSome = true)
    ∧ ∀ r, analyze_sleep_day demoSleep = some r →
        r.total_hrs = pyRound (totalStageMin demoSleep / 60) 2 := by
  constructor
  · exact (analyze_sleep_day_spec demoSleep).1.mpr
      ⟨⟨"Apple Watch", some ("2026-01-15T22:00:00Z"), some ("2026-01-16T02:00:00Z"),
          JsonV.str ("asleepCore")⟩,
        by simp [demoSleep], (1768514400, 1768528800), by decide,
        by norm_num [durationMin], by decide⟩
  · exact fun r hr => ((analyze_sleep_day_spec demoSleep).2 r hr).1

lemma foldl_min_le_init {α : Type} [LinearOrder α] (l : List α) (b : α) :
    l.foldl min b ≤ b := by
  induction l generalizing b with
  | nil => exact le_refl b
  | cons x xs ih => exact le_trans (ih (min b x)) (min_le_left b x)

lemma foldl_min_le_mem {α : Type} [LinearOrder α] (l : List α) (b : α) (v : α)
    (hv : v ∈ l) : l.foldl min b ≤ v := by
  induction l generalizing b with
  | nil => cases hv
  | cons x xs ih =>
    rcases List.mem_cons.mp hv with h1 | h2
    · subst h1
      exact le_trans (foldl_min_le_init xs (min b v)) (min_le_right b v)
    · exact ih (min b x) h2

lemma le_foldl_max_init {α : Type} [LinearOrder α] (l : List α) (b : α) :
    b ≤ l.foldl max b := by
  induction l generalizing b with
  | nil => exact le_refl b
  | cons x xs ih => exact le_trans (le_max_left b x) (ih (max b x))

lemma le_foldl_max_mem {α : Type} [LinearOrder α] (l : List α) (b : α) (v : α)
    (hv : v ∈ l) : v ≤ l.foldl max b := by
  induction l generalizing b with
  | nil => cases hv
  | cons x xs ih =>
    rcases List.mem_cons.mp hv with h1 | h2
    · subst h1
      exact le_trans (le_max_right b v) (le_foldl_max_init xs (max b v))
    · exact ih (max b x) h2

lemma sum_map_add_nat {α : Type} (I : List α) (f g : α → ℕ) :
    (I.map (fun i => f i + g i)).sum = (I.map f).sum + (I.map g).sum := by
  induction I with
  | nil => rfl
  | cons x xs ih =>
    simp only [List.map_cons, List.sum_cons, ih]
    omega

lemma countP_eq_sum_map {α : Type} (I : List α) (p : α → Bool) :
    I.countP p = (I.map (fun i => if p i then 1 else 0)).sum := by
  induction I with
  | nil => rfl
  | cons x xs ih =>
    rw [List.countP_cons, List.map_cons, List.sum_cons, ih]
    omega

lemma sum_map_one {α : Type} (l : List α) :
    (l.map (fun _ => (1 : ℕ))).sum = l.length := by
  induction l with
  | nil => rfl
  | cons x xs ih =>
    simp only [List.map_cons, List.sum_cons, List.length_cons, ih]
    omega

lemma sum_countP_comm (l : List ℚ) (I : List ℕ) (p : ℕ → ℚ → Bool) :
    (I.map (fun i => l.countP (p i))).sum
      = (l.map (fun v => I.countP (fun i => p i v))).sum := by
  induction l with
  | nil =>
    simp only [List.countP_nil, List.map_nil, List.sum_nil]
    induction I with
    | nil => rfl
    | cons x xs ih => simpa using ih
  | cons v l ih =>
    simp only [List.countP_cons, List.map_cons, List.sum_cons]
    rw [sum_map_add_nat I (fun i => l.countP (p i)) (fun i => if p i v then 1 else 0),
      ih, countP_eq_sum_map I (fun i => p i v)]
    omega

lemma countP_range_eq_one (N k : ℕ) (hk : k < N) :
    (List.range N).countP (fun i => decide (i = k)) = 1 := by
  induction N with
  | zero => omega
  | succ n ih =>
    rw [List.range_succ, List.countP_append]
    by_cases hkn : k < n
    · rw [ih hkn]
      have h1 : List.countP (fun i => decide (i = k)) [n] = 0 := by
        simp
        omega
      omega
    · have hk2 : k = n := by omega
      subst hk2
      have h0 : (List.range k).countP (fun i => decide (i = k)) = 0 := by
        rw [List.countP_eq_zero]
        intro a ha
        simp only [decide_eq_true_eq]
        have := List.mem_range.mp ha
        omega
      rw [h0]
      simp

lemma bin_count_one (lo hi : ℚ) (N : ℕ) (hN : 1 ≤ N) (hlh : lo < hi)
    (v : ℚ) (hv1 : lo ≤ v) (hv2 : v ≤ hi) :
    (List.range N).countP (fun (i : ℕ) =>
      (decide (lo + (i : ℚ) * ((hi - lo) / (N : ℚ)) ≤ v)
        && decide (v < lo + ((i : ℚ) + 1) * ((hi - lo) / (N : ℚ))))
      || (decide (i = N - 1)
        && decide (v = lo + ((i : ℚ) + 1) * ((hi - lo) / (N : ℚ))))) = 1 := by
  have hN0 : (0 : ℚ) < (N : ℚ) := by exact_mod_cast hN
  set w : ℚ := (hi - lo) / (N : ℚ) with hwdef
  have hw : 0 < w := div_pos (by linarith) hN0
  have hNw : (N : ℚ) * w = hi - lo := by
    rw [hwdef]
    field_simp
  have hcastlast : ∀ i : ℕ, i = N - 1 → ((i : ℚ) + 1) = (N : ℚ) := by
    intro i h1
    have h2 : i + 1 = N := by omega
    exact_mod_cast congrArg (fun t : ℕ => (t : ℚ)) h2
  by_cases hveq : v = hi
  · refine Eq.trans (List.countP_congr ?_) (countP_range_eq_one N (N - 1) (by omega))
    intro i hi2
    have hiN : i < N := List.mem_range.mp hi2
    have hnostrict : ¬ (v < lo + ((i : ℚ) + 1) * w) := by
      have h1 : ((i : ℚ) + 1) ≤ (N : ℚ) := by exact_mod_cast hiN
      have h2 : ((i : ℚ) + 1) * w ≤ (N : ℚ) * w :=
        mul_le_mul_of_nonneg_right h1 hw.le
      rw [hNw] at h2
      rw [hveq]
      linarith
    simp only [Bool.or_eq_true, Bool.and_eq_true, decide_eq_true_eq]
    constructor
    · rintro (⟨_, hb⟩ | ⟨h1, _⟩)
      · exact absurd hb hnostrict
      · exact h1
    · intro h1
      refine Or.inr ⟨h1, ?_⟩
      rw [hveq, hcastlast i h1, hNw]
      ring
  · have hvlt : v < hi := lt_of_le_of_ne hv2 hveq
    have hdivnn : 0 ≤ (v - lo) / w := div_nonneg (by linarith) hw.le
    have hdivlt : (v - lo) / w < (N : ℚ) := by
      rw [div_lt_iff hw, hNw]
      linarith
    set k : ℕ := ⌊(v - lo) / w⌋₊ with hkdef
    have hkN : k < N := by
      rw [hkdef]
      exact (Nat.floor_lt hdivnn).mpr hdivlt
    refine Eq.trans (List.countP_congr ?_) (countP_range_eq_one N k hkN)
    intro i hi2
    have hiN : i < N := List.mem_range.mp hi2
    have hsecond : ¬ (i = N - 1 ∧ v = lo + ((i : ℚ) + 1) * w) := by
      rintro ⟨h1, h2⟩
      rw [hcastlast i h1, hNw] at h2
      apply hveq
      rw [h2]
      ring
    have hfirst : (lo + (i : ℚ) * w ≤ v ∧ v < lo + ((i : ℚ) + 1) * w) ↔ i = k := by
      constructor
      · rintro ⟨ha, hb⟩
        have ha2 : (i : ℚ) ≤ (v - lo) / w := by
          rw [le_div_iff hw]
          linarith
        have hb2 : (v - lo) / w < (i : ℚ) + 1 := by
          rw [div_lt_iff hw]
          linarith
        have : ⌊(v - lo) / w⌋₊ = i := (Nat.floor_eq_iff hdivnn).mpr ⟨ha2, by
          push_cast
          linarith⟩
        omega
      · intro h1
        have hfl : ⌊(v - lo) / w⌋₊ = i := by omega
        obtain ⟨ha2, hb2⟩ := (Nat.floor_eq_iff hdivnn).mp hfl
        have ha3 : (i : ℚ) * w ≤ v - lo := (le_div_iff hw).mp ha2
        have hb3 : v - lo < ((i : ℚ) + 1) * w := (div_lt_iff hw).mp hb2
        constructor
        · linarith
        · linarith
    simp only [Bool.or_eq_true, Bool.and_eq_true, decide_eq_true_eq]
    constructor
    · rintro (⟨ha, hb⟩ | ⟨h1, h2⟩)
      · exact hfirst.mp ⟨ha, hb⟩
      · exact absurd ⟨h1, h2⟩ hsecond
    · intro h1
      exact Or.inl (hfirst.mpr h1)

/-- C9. For a nonempty value list and at least one bin, the histogram
exists and its bin counts sum to the number of values: every value falls
in exactly one bin. -/
theorem distribution_bins_total (values : List ℚ) (nBins : ℕ)
    (hv : values ≠ []) (hb : 1 ≤ nBins) :
    ∃ bins, _distribution_bins values nBins = some bins
      ∧ (bins.map HBin.count).sum = values.length := by
  obtain ⟨v0, vs, rfl⟩ := List.exists_cons_of_ne_nil hv
  have hlo_le : ∀ v ∈ v0 :: vs, vs.foldl min v0 ≤ v := by
    intro v hv2
    rcases List.mem_cons.mp hv2 with h1 | h2
    · rw [h1]
      exact foldl_min_le_init vs v0
    · exact foldl_min_le_mem vs v0 v h2
  have hhi_ge : ∀ v ∈ v0 :: vs, v ≤ vs.foldl max v0 := by
    intro v hv2
    rcases List.mem_cons.mp hv2 with h1 | h2
    · rw [h1]
      exact le_foldl_max_init vs v0
    · exact le_foldl_max_mem vs v0 v h2
  by_cases hlh : vs.foldl min v0 = vs.foldl max v0
  · refine ⟨[⟨pyRound (vs.foldl min v0) 2, pyRound (vs.foldl max v0) 2,
      (v0 :: vs).length⟩], ?_, ?_⟩
    · simp only [_distribution_bins]
      rw [if_pos hlh]
    · simp
  · have hlt : vs.foldl min v0 < vs.foldl max v0 :=
      lt_of_le_of_ne (le_trans (hlo_le v0 (List.mem_cons_self v0 vs))
        (hhi_ge v0 (List.mem_cons_self v0 vs))) hlh
    rcases hsome : _distribution_bins (v0 :: vs) nBins with _ | bins
    · exfalso
      simp only [_distribution_bins] at hsome
      rw [if_neg hlh] at hsome
      exact Option.noConfusion hsome
    · refine ⟨bins, rfl, ?_⟩
      have hbins : bins = (List.range nBins).map (fun (i : ℕ) =>
          (⟨pyRound (vs.foldl min v0 + (i : ℚ)
              * ((vs.foldl max v0 - vs.foldl min v0) / (nBins : ℚ))) 2,
            pyRound (vs.foldl min v0 + ((i : ℚ) + 1)
              * ((vs.foldl max v0 - vs.foldl min v0) / (nBins : ℚ))) 2,
            (v0 :: vs).countP (fun v =>
              (decide (vs.foldl min v0 + (i : ℚ)
                  * ((vs.foldl max v0 - vs.foldl min v0) / (nBins : ℚ)) ≤ v)
                && decide (v < vs.foldl min v0 + ((i : ℚ) + 1)
                  * ((vs.foldl max v0 - vs.foldl min v0) / (nBins : ℚ))))
              || (decide (i = nBins - 1)
                && decide (v = vs.foldl min v0 + ((i : ℚ) + 1)
                  * ((vs.foldl max v0 - vs.foldl min v0) / (nBins : ℚ)))))⟩ : HBin)) := by
        simp only [_distribution_bins] at hsome
        rw [if_neg hlh] at hsome
        exact (Option.some.inj hsome).symm
      rw [hbins, List.map_map]
      simp only [Function.comp_def]
      rw [sum_countP_comm (v0 :: vs) (List.range nBins)
        (fun (i : ℕ) (v : ℚ) =>
          (decide (vs.foldl min v0 + (i : ℚ)
              * ((vs.foldl max v0 - vs.foldl min v0) / (nBins : ℚ)) ≤ v)
            && decide (v < vs.foldl min v0 + ((i : ℚ) + 1)
              * ((vs.foldl max v0 - vs.foldl min v0) / (nBins : ℚ))))
          || (decide (i = nBins - 1)
            && decide (v = vs.foldl min v0 + ((i : ℚ) + 1)
              * ((vs.foldl max v0 - vs.foldl min v0) / (nBins : ℚ)))))]
      rw [List.map_congr_left (fun v hv2 =>
        bin_count_one (vs.foldl min v0) (vs.foldl max v0) nBins hb hlt v
          (hlo_le v hv2) (hhi_ge v hv2))]
      exact sum_map_one (v0 :: vs)

/-- C9 witness: the histogram totals instantiated on a concrete list and
bin count. -/
theorem distribution_bins_total_witness :
    ∃ bins, _distribution_bins ((1 : ℚ) :: 2 :: 3 :: 10 :: []) 3 = some bins
      ∧ (bins.map HBin.count).sum = ((1 : ℚ) :: 2 :: 3 :: 10 :: []).length :=
  distribution_bins_total ((1 : ℚ) :: 2 :: 3 :: 10 :: []) 3 (by simp) (by omega)

lemma zip_self_eq_map (x : List ℝ) : x.zip x = x.map (fun a => (a, a)) := by
  induction x with
  | nil => rfl
  | cons a l ih => simp [ih]

lemma popVar_nonneg (x : List ℝ) : 0 ≤ popVar x := by
  unfold popVar
  apply div_nonneg
  · apply List.sum_nonneg
    intro a ha
    obtain ⟨b, hb, rfl⟩ := List.mem_map.mp ha
    positivity
  · positivity

lemma pyRound_one_real : pyRound (1 : ℝ) 4 = 1 := by
  have h := pyRound_intCast (α := ℝ) 1 4
  norm_num at h
  exact h

/-- C4 counterexample: a constant list of length seven has zero variance,
so `pearson(x, x)` returns `r = 0`, not `1`. -/
theorem pearson_self_counterexample :
    7 ≤ (List.replicate 7 (5 : ℝ)).length
    ∧ (pearson (List.replicate 7 (5 : ℝ)) (List.replicate 7 (5 : ℝ))).1 ≠ 1 := by
  constructor
  · simp
  · have hvar : popVar (List.replicate 7 (5 : ℝ)) = 0 := by
      unfold popVar popMean
      simp [List.sum_replicate]
      norm_num
    have hsx : Real.sqrt (popVar (List.replicate 7 (5 : ℝ))) = 0 := by
      rw [hvar, Real.sqrt_zero]
    have hp : (pearson (List.replicate 7 (5 : ℝ)) (List.replicate 7 (5 : ℝ))).1 = 0 := by
      simp only [pearson]
      rw [if_neg (by simp)]
      rw [if_pos (Or.inl hsx)]
    rw [hp]
    norm_num

/-- C4 (amended). For a list of at least seven values with nonzero
population variance, `pearson(x, x)` returns `r = 1`. -/
theorem pearson_self (x : List ℝ) (h7 : 7 ≤ x.length) (hvar : popVar x ≠ 0) :
    (pearson x x).1 = 1 := by
  have hn7 : ¬ x.length < 7 := by omega
  have hvnn : 0 ≤ popVar x := popVar_nonneg x
  have hvpos : 0 < popVar x := lt_of_le_of_ne hvnn (Ne.symm hvar)
  have hsx : Real.sqrt (popVar x) ≠ 0 := by
    rw [Real.sqrt_ne_zero']
    exact hvpos
  have hcov : ((x.zip x).map (fun p => (p.1 - popMean x) * (p.2 - popMean x))).sum
      / (x.length : ℝ) = popVar x := by
    rw [zip_self_eq_map, List.map_map]
    have hfun : ((fun p : ℝ × ℝ => (p.1 - popMean x) * (p.2 - popMean x))
        ∘ fun a => (a, a)) = fun a => (a - popMean x) ^ 2 := by
      funext a
      simp only [Function.comp_apply]
      ring
    rw [hfun]
    rfl
  simp only [pearson]
  rw [if_neg hn7]
  rw [if_neg (by push_neg; exact ⟨hsx, hsx⟩)]
  rw [hcov, Real.mul_self_sqrt hvnn, div_self (ne_of_gt hvpos), min_self,
    max_eq_right (by norm_num : (-1 : ℝ) ≤ 1)]
  rw [if_pos (by norm_num : (1 : ℝ) ≤ |(1 : ℝ)|)]
  exact pyRound_one_real

/-- C4 witness: the amended statement instantiated on `[0, 1, ..., 6]`,
whose population variance is four. -/
theorem pearson_self_witness :
    7 ≤ ((0 : ℝ) :: 1 :: 2 :: 3 :: 4 :: 5 :: 6 :: []).length
    ∧ popVar ((0 : ℝ) :: 1 :: 2 :: 3 :: 4 :: 5 :: 6 :: []) ≠ 0
    ∧ (pearson ((0 : ℝ) :: 1 :: 2 :: 3 :: 4 :: 5 :: 6 :: [])
        ((0 : ℝ) :: 1 :: 2 :: 3 :: 4 :: 5 :: 6 :: [])).1 = 1 := by
  have hvar : popVar ((0 : ℝ) :: 1 :: 2 :: 3 :: 4 :: 5 :: 6 :: []) = 4 := by
    unfold popVar popMean
    norm_num [List.sum_cons, List.map_cons]
  refine ⟨by simp, by rw [hvar]; norm_num, pearson_self _ (by simp) (by rw [hvar]; norm_num)⟩

end Health
